import Mathlib

/-!
Verification of the client-side encryption / integrity core of the
BlockStore NFT file-storage repository.

The TypeScript source is shallowly embedded:

* JavaScript strings are modelled as `List Nat` of their UTF-16 code
  units (all strings manipulated by the core are ASCII, so a code unit
  is also the byte the platform `TextEncoder` would emit for it).
* Byte buffers (`Uint8Array` / `ArrayBuffer`) are `List Nat` with every
  element `< 256`.
* Platform primitives that are not code of this repository
  (`crypto.subtle` AES-GCM, SHA-256, `btoa` / `atob`, `TextEncoder` /
  `TextDecoder`, `JSON.stringify` / `JSON.parse`) are explicit function
  parameters, constrained only by their documented contracts where a
  proof needs them; randomness (`crypto.getRandomValues`, `uuidv4`) is
  likewise passed in as data.
* Fallible code returns `Except` / `Option`; a thrown JS exception is
  an `Except.error` carrying the kind of the thrown value.
-/

/-- A JavaScript string: its list of UTF-16 code units. -/
abbrev JStr := List Nat

/-- A byte buffer. -/
abbrev Bytes := List Nat

/-! ## Hex and decimal codecs (from the source's inline conversions) -/

/-- Code unit of the lowercase hex digit for `n < 16`
(`n.toString(16)` for one digit). -/
def hexDigitCode (n : Nat) : Nat :=
  if n < 10 then 48 + n else 87 + n

/-- The code units of `b.toString(16).padStart(2, "0")` for a byte `b < 256`. -/
def byteToHex2 (b : Nat) : JStr :=
  [hexDigitCode (b / 16), hexDigitCode (b % 16)]

/-- Rendering `Array.from(bytes).map((b) => b.toString(16).padStart(2, "0")).join("")`:
the lowercase hex string of a byte buffer. -/
def bytesToHex (bs : Bytes) : JStr :=
  bs.flatMap byteToHex2

/-- Value of one hex digit code unit, as `Number.parseInt(·, 16)` sees it:
`0-9`, `a-f` and `A-F` are digits; anything else yields `NaN`, which the
`Uint8Array` constructor coerces to `0`. -/
def hexVal (c : Nat) : Nat :=
  if 48 ≤ c ∧ c ≤ 57 then c - 48
  else if 97 ≤ c ∧ c ≤ 102 then c - 87
  else if 65 ≤ c ∧ c ≤ 70 then c - 55
  else 0

/-- Embedding of `s.match(/.{1,2}/g).map((byte) => Number.parseInt(byte, 16))`:
split a string into chunks of two code units (a trailing odd chunk has
one) and parse each chunk as hex. -/
def parseHexPairs : JStr → Bytes
  | [] => []
  | [c] => [hexVal c]
  | c1 :: c2 :: rest => (hexVal c1 * 16 + hexVal c2) :: parseHexPairs rest

/-- Whether a code unit is one of `0-9a-fA-F` (the class of the source's
`/^[0-9a-f]{n}$/i` key-format tests). -/
def isHexDigitCode (c : Nat) : Bool :=
  (48 ≤ c && c ≤ 57) || (97 ≤ c && c ≤ 102) || (65 ≤ c && c ≤ 70)

/-- Test of the regex `/^[0-9a-f]{n}$/i` against a string. -/
def isHexOfLen (n : Nat) (s : JStr) : Bool :=
  s.length == n && s.all isHexDigitCode

/-- Code units of `n.toString()` (JS decimal rendering of a
non-negative integer embedded in a template string). -/
def natToDec (n : Nat) : JStr :=
  if h : n < 10 then [48 + n]
  else natToDec (n / 10) ++ [48 + n % 10]
  decreasing_by exact Nat.div_lt_self (by omega) (by omega)

/-- Value of `Number(s)` on a string of decimal digit code units. -/
def decParse (s : JStr) : Nat :=
  s.foldl (fun acc c => acc * 10 + (c - 48)) 0

/-- Embedding of `s.split(sep)` for a one-code-unit separator `sep`. -/
def sepSplit (sep : Nat) : JStr → List JStr
  | [] => [[]]
  | c :: rest =>
    let r := sepSplit sep rest
    if c = sep then [] :: r
    else (c :: r.headD []) :: r.tail

/-! ## Merkle integrity engine (`generateMerkleTree`, `verifyMerkleProof`
in `src/lib/audit.ts`)

`utf8` is the platform `TextEncoder().encode`; every string hashed here
is ASCII hex, on which UTF-8 encoding is the identity on code units. -/

/-- Leaf hash of a chunk: each byte XORed with `0x42`, hex-encoded
(the source's "simple XOR hash"). -/
def hashChunk (chunk : Bytes) : JStr :=
  bytesToHex (chunk.map (fun b => Nat.xor b 66))

/-- Interior combine rule: hex-encode the UTF-8 bytes of the
concatenation of two node strings. -/
def strHash (utf8 : JStr → Bytes) (s : JStr) : JStr :=
  bytesToHex (utf8 s)

/-- One `while` pass of the tree builder: pair adjacent nodes and
combine, promoting a trailing odd node unchanged. -/
def combineLevel (utf8 : JStr → Bytes) : List JStr → List JStr
  | [] => []
  | [a] => [a]
  | a :: b :: rest => strHash utf8 (a ++ b) :: combineLevel utf8 rest

theorem combineLevel_length (utf8 : JStr → Bytes) :
    ∀ l : List JStr, (combineLevel utf8 l).length = (l.length + 1) / 2
  | [] => rfl
  | [_] => by simp [combineLevel]
  | _ :: _ :: rest => by
    simp [combineLevel, combineLevel_length utf8 rest]
    omega

/-- All levels of the Merkle tree, leaves first, root level last
(the source stores them root-first via `unshift`; proof generation walks
them leaves-first, which is the order kept here). -/
def buildLevels (utf8 : JStr → Bytes) (l : List JStr) : List (List JStr) :=
  if l.length ≤ 1 then [l]
  else l :: buildLevels utf8 (combineLevel utf8 l)
  termination_by l.length
  decreasing_by
    simp [combineLevel_length]
    omega

/-- The sibling-collection walk for one leaf: at each level below the
root, record the sibling node (if it exists) and halve the index.
`levels` is the level list with the root level removed. -/
def proofSteps (levels : List (List JStr)) (idx : Nat) : List JStr :=
  match levels with
  | [] => []
  | lvl :: rest =>
    let sib := if idx % 2 = 0 then idx + 1 else idx - 1
    (if sib < lvl.length then [lvl.getD sib []] else [])
      ++ proofSteps rest (idx / 2)

/-- Function `generateMerkleTree(chunks)` from `src/lib/audit.ts`: leaf-hash every
chunk, build the tree bottom-up, and emit the root together with one
sibling path per leaf. -/
def generateMerkleTree (utf8 : JStr → Bytes) (chunks : List Bytes) :
    JStr × List (List JStr) :=
  let leaves := chunks.map hashChunk
  let levels := buildLevels utf8 leaves
  let root := ((levels.getLast?).getD []).headD []
  let proofs := (List.range leaves.length).map
    (fun i => proofSteps levels.dropLast i)
  (root, proofs)

/-- Function `verifyMerkleProof(chunk, proof, root)` from `src/lib/audit.ts`:
re-hash the chunk, then fold every proof sibling in with
`hash := strHash (hash ++ sibling)` — the sibling is always appended on
the right — and compare with the root. -/
def verifyMerkleProof (utf8 : JStr → Bytes) (chunk : Bytes)
    (proof : List JStr) (root : JStr) : Bool :=
  (proof.foldl (fun h sib => strHash utf8 (h ++ sib)) (hashChunk chunk)) == root

/-- ASCII-faithful stand-in for the platform UTF-8 encoder, used to
evaluate the Merkle engine at concrete inputs: on code units `< 128`
(the only ones that occur — every tree node is a hex string) UTF-8 is
the identity byte for byte. -/
def utf8Ascii : JStr → Bytes := fun s => s

/-! ## Platform AEAD abstraction

The source calls `window.crypto.subtle` AES-GCM, which is not code of
this repository; it is modelled as an abstract authenticated cipher:
`enc key iv plaintext` and `dec key iv ciphertext`, the latter returning
`none` exactly when the platform call would reject (tag failure). -/

/-- Abstract platform AEAD cipher (AES-GCM in the source). -/
structure AEAD where
  enc : Bytes → Bytes → Bytes → Bytes
  dec : Bytes → Bytes → Bytes → Option Bytes

/-- The AEAD decryption contract: decrypting a ciphertext with the key
and IV it was produced under recovers the plaintext. -/
def AEAD.Correct (A : AEAD) : Prop :=
  ∀ k iv pt, A.dec k iv (A.enc k iv pt) = some pt

/-- The AEAD output is a byte buffer whenever its input is. -/
def AEAD.Bytelike (A : AEAD) : Prop :=
  ∀ k iv pt, (∀ b ∈ pt, b < 256) → ∀ b ∈ A.enc k iv pt, b < 256

/-- Kinds of values thrown (or rejections propagated) by the
encryption subsystem.  `operationError` is the platform `OperationError`
a failed `crypto.subtle` decrypt rejects with; `dataError` is the
rejection of `importKey` on raw data that is not a 16-byte AES-128 key;
`invalidKeyLength` is the source's own
`throw new Error("Invalid key length: ...")`; `jsonError` is a
`JSON.parse` failure; `invalidCharacter` is the `InvalidCharacterError`
that `atob` throws on a non-base64 argument (in particular on the
`undefined` produced by destructuring a one-part split); the remaining
kinds are the source's own thrown `Error`s, identified by their
message. -/
inductive CryptoError where
  | sizeLimitExceeded
  | dataError
  | operationError
  | invalidKeyLength (bits : Nat)
  | jsonError
  | missingIv
  | invalidCharacter
  | insufficientShares
  deriving DecidableEq, Repr

/-! ## Single-layer encryptor (`encryptFile` / `decryptFile` in the
"Simplified encryption utilities" module)

A `File` is modelled by its name and its byte content; the informational
`type` / `lastModified` fields play no role in any claim and are
omitted.  `bufferToBase64` / `base64ToBuffer` are the source's wrappers
around the platform `btoa` / `atob`: with strings as code-unit lists,
`String.fromCharCode` / `charCodeAt` are identities, so the wrappers are
the platform functions themselves, passed in as `btoa` / `atob`. -/

/-- A JS `File`: name and contents. -/
structure JsFile where
  name : JStr
  bytes : Bytes
  deriving DecidableEq, Repr

/-- Code units of the string literal `"AES-GCM"`. -/
def algAESGCM : JStr := [65, 69, 83, 45, 71, 67, 77]

/-- The `EncryptionMetadata` record of the single-layer scheme
(informational timestamp/type fields omitted). -/
structure EncryptionMetadata where
  iv : JStr
  algorithm : JStr
  originalFileName : JStr
  originalFileSize : JStr
  deriving DecidableEq, Repr

/-- The source's 15 MB cap: `15 * 1024 * 1024`. -/
def MAX_ENCRYPTION_SIZE : Nat := 15 * 1024 * 1024

/-- Function `encryptFile(file, encryptionKey)`: reject inputs over the size
cap before any cryptographic work, parse the hex key, AES-GCM-encrypt
under a fresh random 12-byte IV (`iv`, passed in as the randomness), and
return the `.enc` file plus metadata carrying the base64 IV.  The raw
key import rejects (`dataError`) unless the parsed key is 16 bytes. -/
def encryptFile (A : AEAD) (btoa : Bytes → JStr) (iv : Bytes)
    (file : JsFile) (encryptionKey : JStr) :
    Except CryptoError (JsFile × EncryptionMetadata) :=
  if file.bytes.length > MAX_ENCRYPTION_SIZE then
    .error .sizeLimitExceeded
  else
    let keyBytes := parseHexPairs encryptionKey
    if keyBytes.length ≠ 16 then .error .dataError
    else
      let encryptedBuffer := A.enc keyBytes iv file.bytes
      .ok ({ name := file.name ++ [46, 101, 110, 99],
             bytes := encryptedBuffer },
           { algorithm := algAESGCM,
             iv := btoa iv,
             originalFileName := file.name,
             originalFileSize := natToDec file.bytes.length })

/-- Embedding of the `/\.enc$/` strip used for the fallback output name. -/
def stripEncSuffix (name : JStr) : JStr :=
  if [46, 101, 110, 99] <:+ name then name.take (name.length - 4) else name

/-- Function `decryptFile(encryptedFile, metadata, encryptionKey)`: require a
non-empty IV in the metadata, parse the hex key, base64-decode the IV
and AES-GCM-decrypt; a tag failure surfaces the platform rejection. -/
def decryptFile (A : AEAD) (atob : JStr → Bytes) (encryptedFile : JsFile)
    (metadata : EncryptionMetadata) (encryptionKey : JStr) :
    Except CryptoError JsFile :=
  if metadata.iv = [] then .error .missingIv
  else
    let keyBytes := parseHexPairs encryptionKey
    let iv := atob metadata.iv
    if keyBytes.length ≠ 16 then .error .dataError
    else
      match A.dec keyBytes iv encryptedFile.bytes with
      | none => .error .operationError
      | some decryptedBuffer =>
        let fileName := if metadata.originalFileName ≠ [] then
            metadata.originalFileName
          else stripEncSuffix encryptedFile.name
        .ok { name := fileName, bytes := decryptedBuffer }

/-! ## Multi-layer ("onion") encryptor (`multiLayerEncrypt`,
`encryptLayerKeys`, `decryptLayerKeys`, `multiLayerDecrypt` in
`src/lib/audit.ts`)

Platform parameters: `utf8` / `td` are `TextEncoder().encode` /
`TextDecoder().decode`; `sha` is `crypto.subtle.digest("SHA-256", ·)`;
`jstr` / `jparse` are `JSON.stringify` / `JSON.parse` specialised to
arrays of strings.  Randomness: `keyRnd i` / `ivRnd i` are the 16 and 12
bytes drawn by `getRandomValues` in loop iteration `i`, `klIv` the IV
drawn for the layer-key bundle, `uuid` the `uuidv4()` session id. -/

/-- One entry of `metadata.layers`. -/
structure LayerMeta where
  algorithm : JStr
  ivBase64 : JStr
  layerIndex : Nat
  deriving DecidableEq, Repr

/-- The metadata record built by `multiLayerEncrypt`. -/
structure MLMeta where
  version : JStr
  layers : List LayerMeta
  encryptedLayerKeys : JStr
  encryptionId : JStr
  deriving DecidableEq, Repr

/-- Code units of the string literal `"1.0"`. -/
def versionOneZero : JStr := [49, 46, 48]

/-- The hardcoded `const LAYERS = 3` of `multiLayerEncrypt`. -/
def LAYERS : Nat := 3

/-- Key derivation inside `encryptLayerKeys`: 32 hex chars parse to 16
raw bytes; 64 hex chars parse to 32 bytes truncated to the first 16;
anything else is digested with SHA-256 and truncated to 16 bytes. -/
def deriveKeyBytesEnc (sha : Bytes → Bytes) (utf8 : JStr → Bytes)
    (primaryKey : JStr) : Bytes :=
  if isHexOfLen 32 primaryKey then parseHexPairs primaryKey
  else if isHexOfLen 64 primaryKey then (parseHexPairs primaryKey).take 16
  else (sha (utf8 primaryKey)).take 16

/-- Key derivation inside `decryptLayerKeys`, embedded separately: the
source duplicates the trichotomy verbatim on the decrypt side. -/
def deriveKeyBytesDec (sha : Bytes → Bytes) (utf8 : JStr → Bytes)
    (primaryKey : JStr) : Bytes :=
  if isHexOfLen 32 primaryKey then parseHexPairs primaryKey
  else if isHexOfLen 64 primaryKey then (parseHexPairs primaryKey).take 16
  else (sha (utf8 primaryKey)).take 16

/-- Function `encryptLayerKeys(layerKeys, primaryKey)`: derive the AES key
from the primary key, JSON-encode the layer-key array, AEAD-encrypt its
UTF-8 bytes under the fresh IV `klIv`, and return
`base64(ciphertext) ++ "." ++ base64(iv)`. -/
def encryptLayerKeys (A : AEAD) (btoa : Bytes → JStr)
    (utf8 : JStr → Bytes) (sha : Bytes → Bytes)
    (jstr : List JStr → JStr) (klIv : Bytes)
    (layerKeys : List JStr) (primaryKey : JStr) : JStr :=
  let keyBuffer := deriveKeyBytesEnc sha utf8 primaryKey
  let layerKeysJson := jstr layerKeys
  let encryptedLayerKeys := A.enc keyBuffer klIv (utf8 layerKeysJson)
  btoa encryptedLayerKeys ++ [46] ++ btoa klIv

/-- Function `decryptLayerKeys(encryptedLayerKeysString, primaryKey)`: split
on `"."`, base64-decode ciphertext and IV, derive the AES key by the
same trichotomy, AEAD-decrypt (a tag failure propagates the platform
rejection unwrapped) and `JSON.parse` the plaintext.  When the string
contains no `"."`, the destructured `ivBase64` is `undefined` and
`atob(undefined)` throws `InvalidCharacterError` before any AEAD
call. -/
def decryptLayerKeys (A : AEAD) (atob : JStr → Bytes)
    (utf8 : JStr → Bytes) (td : Bytes → JStr) (sha : Bytes → Bytes)
    (jparse : JStr → Option (List JStr))
    (encryptedLayerKeysString : JStr) (primaryKey : JStr) :
    Except CryptoError (List JStr) :=
  let parts := sepSplit 46 encryptedLayerKeysString
  if parts.length < 2 then .error .invalidCharacter
  else
  let encryptedLayerKeys := atob (parts.getD 0 [])
  let iv := atob (parts.getD 1 [])
  let keyBuffer := deriveKeyBytesDec sha utf8 primaryKey
  match A.dec keyBuffer iv encryptedLayerKeys with
  | none => .error .operationError
  | some decryptedLayerKeys =>
    match jparse (td decryptedLayerKeys) with
    | none => .error .jsonError
    | some layerKeys => .ok layerKeys

/-- The `for (let i = 0; i < LAYERS; i++)` loop of `multiLayerEncrypt`:
`n` layers remain and `i` is the current layer index.  Each iteration
draws a 16-byte key, hex-encodes it into `layerKeys`, parses it back,
checks the 16-byte length, encrypts the running buffer under a fresh
12-byte IV and appends the layer record. -/
def mlEncLoop (A : AEAD) (btoa : Bytes → JStr)
    (keyRnd ivRnd : Nat → Bytes) :
    Nat → Nat → Bytes → Except CryptoError (Bytes × List JStr × List LayerMeta)
  | 0, _, currentData => .ok (currentData, [], [])
  | n + 1, i, currentData =>
    let keyBytes := keyRnd i
    let layerKey := bytesToHex keyBytes
    let keyBuffer := parseHexPairs layerKey
    if keyBuffer.length ≠ 16 then .error (.invalidKeyLength (keyBuffer.length * 8))
    else
      let iv := ivRnd i
      let encryptedData := A.enc keyBuffer iv currentData
      match mlEncLoop A btoa keyRnd ivRnd n (i + 1) encryptedData with
      | .error e => .error e
      | .ok (finalData, keys, metas) =>
        .ok (finalData, layerKey :: keys,
             { algorithm := algAESGCM, ivBase64 := btoa iv, layerIndex := i } :: metas)

/-- Function `multiLayerEncrypt(data, primaryKey)`: apply `LAYERS = 3`
AES-GCM layers with fresh keys and IVs, then store the layer keys —
encrypted under the primary key — in the metadata, together with the
version tag `"1.0"` and the session id. -/
def multiLayerEncrypt (A : AEAD) (btoa : Bytes → JStr)
    (utf8 : JStr → Bytes) (sha : Bytes → Bytes)
    (jstr : List JStr → JStr) (keyRnd ivRnd : Nat → Bytes)
    (klIv : Bytes) (uuid : JStr) (data : Bytes) (primaryKey : JStr) :
    Except CryptoError (Bytes × List JStr × MLMeta) :=
  match mlEncLoop A btoa keyRnd ivRnd LAYERS 0 data with
  | .error e => .error e
  | .ok (encryptedData, layerKeys, layerMetas) =>
    let encryptedLayerKeys :=
      encryptLayerKeys A btoa utf8 sha jstr klIv layerKeys primaryKey
    .ok (encryptedData, layerKeys,
         { version := versionOneZero,
           layers := layerMetas,
           encryptedLayerKeys := encryptedLayerKeys,
           encryptionId := uuid })

/-- The `for (let i = metadata.layers.length - 1; i >= 0; i--)` loop of
`multiLayerDecrypt`: called with `n = layers.length`, iteration at
`n + 1` processes layer index `n`.  Each step parses the hex layer key
at that index, checks the 16-byte length, base64-decodes the layer IV
and AEAD-decrypts the running buffer; a tag failure propagates the
platform rejection unwrapped. -/
def mlDecLoop (A : AEAD) (atob : JStr → Bytes)
    (layers : List LayerMeta) (layerKeys : List JStr) :
    Nat → Bytes → Except CryptoError Bytes
  | 0, currentData => .ok currentData
  | n + 1, currentData =>
    let layer := layers.getD n { algorithm := [], ivBase64 := [], layerIndex := 0 }
    let layerKey := layerKeys.getD n []
    let keyBuffer := parseHexPairs layerKey
    if keyBuffer.length ≠ 16 then .error (.invalidKeyLength (keyBuffer.length * 8))
    else
      let iv := atob layer.ivBase64
      match A.dec keyBuffer iv currentData with
      | none => .error .operationError
      | some decryptedData => mlDecLoop A atob layers layerKeys n decryptedData

/-- Function `multiLayerDecrypt(encryptedData, metadata, primaryKey)`:
recover the layer keys by decrypting `metadata.encryptedLayerKeys` under
the primary key, then undo the layers from `metadata.layers.length - 1`
down to `0`.  The function reads only `metadata.layers` and
`metadata.encryptedLayerKeys`; in particular `metadata.version` is never
consulted, and a failure in either phase is the unwrapped platform
rejection. -/
def multiLayerDecrypt (A : AEAD) (atob : JStr → Bytes)
    (utf8 : JStr → Bytes) (td : Bytes → JStr) (sha : Bytes → Bytes)
    (jparse : JStr → Option (List JStr))
    (encryptedData : Bytes) (metadata : MLMeta) (primaryKey : JStr) :
    Except CryptoError Bytes :=
  match decryptLayerKeys A atob utf8 td sha jparse
      metadata.encryptedLayerKeys primaryKey with
  | .error e => .error e
  | .ok layerKeys =>
    mlDecLoop A atob metadata.layers layerKeys metadata.layers.length encryptedData

/-! ## Shamir-style secret splitting (`splitKey`, `combineShares` in
`src/lib/audit.ts`)

The source computes with IEEE-754 doubles (`Math.pow`, float division,
`Math.round`, `Math.floor`); the embedding uses exact arithmetic (`Nat`
for polynomial evaluation, `Rat` for the Lagrange interpolation).  The
two agree only while every intermediate stays within double precision:
secrets of at most 6 bytes encode below 2^48 and every Lagrange
intermediate stays well below 2^53 with rounding error under one half,
so `Math.round` recovers the exact integer; secrets of 7 bytes or more
encode above 2^53 and the real code reconstructs a rounded, different
value, which this exact model does not capture — theorems about
reconstruction therefore carry the 6-byte bound.  `coeffRnd i` is the
random 32-bit coefficient drawn in loop iteration `i`. -/

/-- The secret-to-integer encoding of `splitKey`:
`reduce((acc, byte, i) => acc + byte * Math.pow(256, i), 0)`. -/
def encode256 : Bytes → Nat
  | [] => 0
  | b :: rest => b + 256 * encode256 rest

/-- Polynomial evaluation as in the share loop:
`for i: y += coefficients[i] * Math.pow(x, i)`. -/
def polyEval (coefficients : List Nat) (x : Nat) : Nat :=
  (List.range coefficients.length).foldl
    (fun y i => y + coefficients.getD i 0 * x ^ i) 0

/-- Function `splitKey(secret, numShares, threshold)`: encode the UTF-8 bytes
of the secret as one integer, make it the constant term of a polynomial
with `threshold - 1` random coefficients, evaluate at `x = 1..numShares`
and render each share as the string `x + ":" + y`. -/
def splitKey (utf8 : JStr → Bytes) (coeffRnd : Nat → Nat)
    (secret : JStr) (numShares threshold : Nat) : List JStr :=
  let secretBytes := utf8 secret
  let secretValue := encode256 secretBytes
  let coefficients :=
    secretValue :: (List.range (threshold - 1)).map (fun i => coeffRnd (i + 1))
  (List.range numShares).map (fun k =>
    let x := k + 1
    let y := polyEval coefficients x
    natToDec x ++ [58] ++ natToDec y)

/-- JavaScript `Math.round` on an exact rational: round half away from
zero upward, i.e. the floor of `q + 1/2`. -/
def jsRound (q : ℚ) : ℤ := ⌊q + 1 / 2⌋

/-- The byte-decoding `while (tempSecret > 0)` loop of `combineShares`:
repeatedly emit `tempSecret % 256` and divide by 256. -/
def decode256 (n : Nat) : Bytes :=
  if n = 0 then [] else n % 256 :: decode256 (n / 256)
  decreasing_by exact Nat.div_lt_self (by omega) (by omega)

/-- Parsing of one share inside `combineShares`:
`const [x, y] = share.split(":").map(Number)`. -/
def parseShare (share : JStr) : ℚ × ℚ :=
  let parts := sepSplit 58 share
  ((decParse (parts.getD 0 []) : ℚ), (decParse (parts.getD 1 []) : ℚ))

/-- The Lagrange double loop of `combineShares`: for each `i < threshold`
start from `points[i].y` and multiply by `points[j].x / (points[j].x -
points[i].x)` for every `j < threshold`, `j ≠ i`; sum the terms. -/
def lagrangeAtZero (points : List (ℚ × ℚ)) (threshold : Nat) : ℚ :=
  (List.range threshold).foldl
    (fun secret i =>
      secret + (List.range threshold).foldl
        (fun term j =>
          if i ≠ j then
            term * ((points.getD j (0, 0)).1 /
              ((points.getD j (0, 0)).1 - (points.getD i (0, 0)).1))
          else term)
        (points.getD i (0, 0)).2)
    0

/-- Function `combineShares(shares, threshold)`: throw when fewer than
`threshold` shares are supplied; otherwise parse every share, rebuild
the constant term by Lagrange interpolation at `x = 0` over the first
`threshold` points, round it, peel the integer back into bytes and
decode them as text. -/
def combineShares (td : Bytes → JStr) (shares : List JStr)
    (threshold : Nat) : Except CryptoError JStr :=
  if shares.length < threshold then .error .insufficientShares
  else
    let points := shares.map parseShare
    let secret := lagrangeAtZero points threshold
    let secretBytes := decode256 (jsRound secret).toNat
    .ok (td secretBytes)

/-! ## Codec lemmas -/

theorem hexVal_hexDigitCode {n : Nat} (h : n < 16) :
    hexVal (hexDigitCode n) = n := by
  unfold hexVal hexDigitCode
  split_ifs <;> omega

theorem parseHexPairs_bytesToHex :
    ∀ bs : Bytes, (∀ b ∈ bs, b < 256) → parseHexPairs (bytesToHex bs) = bs
  | [], _ => rfl
  | b :: rest, h => by
    have hb : b < 256 := h b (List.mem_cons_self b rest)
    have ih := parseHexPairs_bytesToHex rest
      (fun x hx => h x (List.mem_cons_of_mem b hx))
    have hstep : bytesToHex (b :: rest) =
        hexDigitCode (b / 16) :: hexDigitCode (b % 16) :: bytesToHex rest := rfl
    rw [hstep, parseHexPairs, hexVal_hexDigitCode (by omega),
      hexVal_hexDigitCode (by omega), ih]
    congr 1
    omega

theorem parseHexPairs_length :
    ∀ s : JStr, (parseHexPairs s).length = (s.length + 1) / 2
  | [] => rfl
  | [_] => by simp [parseHexPairs]
  | _ :: _ :: rest => by
    simp [parseHexPairs, parseHexPairs_length rest]
    omega

theorem bytesToHex_length (bs : Bytes) :
    (bytesToHex bs).length = 2 * bs.length := by
  induction bs with
  | nil => rfl
  | cons b rest ih => simp [bytesToHex, byteToHex2] at ih ⊢; omega

theorem hexDigitCode_isHexDigit {n : Nat} (h : n < 16) :
    isHexDigitCode (hexDigitCode n) = true := by
  unfold isHexDigitCode hexDigitCode
  split_ifs <;> simp only [Bool.or_eq_true, Bool.and_eq_true,
    decide_eq_true_eq] <;> omega

theorem bytesToHex_hexDigits :
    ∀ bs : Bytes, (∀ b ∈ bs, b < 256) →
      ∀ c ∈ bytesToHex bs, isHexDigitCode c = true
  | [], _ => by simp [bytesToHex]
  | b :: rest, h => by
    have hb : b < 256 := h b (List.mem_cons_self b rest)
    have ih := bytesToHex_hexDigits rest
      (fun x hx => h x (List.mem_cons_of_mem b hx))
    intro c hc
    have hstep : bytesToHex (b :: rest) =
        hexDigitCode (b / 16) :: hexDigitCode (b % 16) :: bytesToHex rest := rfl
    rw [hstep] at hc
    simp only [List.mem_cons] at hc
    rcases hc with h1 | h1 | h1
    · subst h1; exact hexDigitCode_isHexDigit (by omega)
    · subst h1; exact hexDigitCode_isHexDigit (by omega)
    · exact ih c h1

theorem natToDec_digits (n : Nat) :
    ∀ c ∈ natToDec n, 48 ≤ c ∧ c ≤ 57 := by
  induction n using Nat.strong_induction_on with
  | _ n ih =>
    intro c hc
    unfold natToDec at hc
    split at hc
    · simp at hc; omega
    · rename_i h
      rw [List.mem_append] at hc
      rcases hc with h1 | h1
      · exact ih (n / 10) (Nat.div_lt_self (by omega) (by omega)) c h1
      · simp at h1; omega

theorem decParse_append_digit (s : JStr) (d : Nat) :
    decParse (s ++ [d]) = decParse s * 10 + (d - 48) := by
  simp [decParse, List.foldl_append]

theorem decParse_natToDec (n : Nat) : decParse (natToDec n) = n := by
  induction n using Nat.strong_induction_on with
  | _ n ih =>
    unfold natToDec
    split
    · rename_i h
      simp only [decParse, List.foldl]
      omega
    · rename_i h
      rw [decParse_append_digit,
        ih (n / 10) (Nat.div_lt_self (by omega) (by omega))]
      omega

theorem sepSplit_of_not_mem {sep : Nat} :
    ∀ s : JStr, sep ∉ s → sepSplit sep s = [s]
  | [], _ => rfl
  | c :: rest, h => by
    have hc : c ≠ sep := fun hcc => h (hcc ▸ List.mem_cons_self c rest)
    have ih := sepSplit_of_not_mem rest (fun hr => h (List.mem_cons_of_mem c hr))
    simp [sepSplit, hc, ih]

theorem sepSplit_append {sep : Nat} :
    ∀ s1 s2 : JStr, sep ∉ s1 →
      sepSplit sep (s1 ++ sep :: s2) = s1 :: sepSplit sep s2
  | [], s2, _ => by simp [sepSplit]
  | c :: rest, s2, h => by
    have hc : c ≠ sep := fun hcc => h (hcc ▸ List.mem_cons_self c rest)
    have ih := sepSplit_append rest s2 (fun hr => h (List.mem_cons_of_mem c hr))
    simp [sepSplit, hc, ih]

theorem decode256_zero : decode256 0 = [] := by
  unfold decode256
  simp

theorem decode256_step {n : Nat} (h : n ≠ 0) :
    decode256 n = n % 256 :: decode256 (n / 256) := by
  conv_lhs => unfold decode256
  simp [h]

theorem decode256_encode256 :
    ∀ bs : Bytes, (∀ b ∈ bs, b < 256) → bs.getLast? ≠ some 0 →
      decode256 (encode256 bs) = bs
  | [], _, _ => decode256_zero
  | b :: rest, h, hlast => by
    have hb : b < 256 := h b (List.mem_cons_self b rest)
    cases rest with
    | nil =>
      have hb0 : b ≠ 0 := fun h0 => hlast (by simp [h0])
      have he : encode256 [b] = b := by simp [encode256]
      rw [he, decode256_step hb0, Nat.mod_eq_of_lt hb,
        Nat.div_eq_of_lt hb, decode256_zero]
    | cons c t =>
      have hlast2 : (c :: t).getLast? ≠ some 0 := by
        simpa [List.getLast?_cons_cons] using hlast
      have ih := decode256_encode256 (c :: t)
        (fun x hx => h x (List.mem_cons_of_mem b hx)) hlast2
      have henz : encode256 (c :: t) ≠ 0 := by
        intro h0
        rw [h0, decode256_zero] at ih
        exact (List.cons_ne_nil c t) ih.symm
      have henc : encode256 (b :: c :: t) = b + 256 * encode256 (c :: t) := rfl
      rw [henc, decode256_step (by omega)]
      have h1 : (b + 256 * encode256 (c :: t)) % 256 = b := by omega
      have h2 : (b + 256 * encode256 (c :: t)) / 256 = encode256 (c :: t) := by
        omega
      rw [h1, h2, ih]

theorem jsRound_natCast (n : Nat) : jsRound (n : ℚ) = n := by
  rw [jsRound, Int.floor_eq_iff]
  constructor <;> push_cast <;> norm_num

theorem lagrange3 (x0 x1 x2 c0 c1 c2 : ℚ)
    (h01 : x0 ≠ x1) (h02 : x0 ≠ x2) (h12 : x1 ≠ x2) :
    lagrangeAtZero
      [(x0, c0 + c1 * x0 + c2 * x0 ^ 2),
       (x1, c0 + c1 * x1 + c2 * x1 ^ 2),
       (x2, c0 + c1 * x2 + c2 * x2 ^ 2)] 3 = c0 := by
  have d0 : x1 - x0 ≠ 0 := sub_ne_zero.mpr (Ne.symm h01)
  have d1 : x2 - x0 ≠ 0 := sub_ne_zero.mpr (Ne.symm h02)
  have d2 : x0 - x1 ≠ 0 := sub_ne_zero.mpr h01
  have d3 : x2 - x1 ≠ 0 := sub_ne_zero.mpr (Ne.symm h12)
  have d4 : x0 - x2 ≠ 0 := sub_ne_zero.mpr h02
  have d5 : x1 - x2 ≠ 0 := sub_ne_zero.mpr h12
  have hr : List.range 3 = [0, 1, 2] := rfl
  rw [lagrangeAtZero, hr]
  simp only [List.foldl, List.getD, List.get?, ne_eq]
  norm_num
  field_simp
  ring

theorem foldl_range_congr {α : Type} (f g : α → Nat → α) (T : Nat)
    (h : ∀ a i, i < T → f a i = g a i) :
    ∀ a, (List.range T).foldl f a = (List.range T).foldl g a := by
  induction T with
  | zero => intro a; rfl
  | succ n ih =>
    intro a
    rw [List.range_succ, List.foldl_append, List.foldl_append]
    rw [ih (fun a i hi => h a i (by omega)) a]
    simp only [List.foldl]
    rw [h _ n (by omega)]

theorem getD_take {α : Type} (d : α) :
    ∀ (l : List α) (n i : Nat), i < n → (l.take n).getD i d = l.getD i d
  | [], _, _, _ => by simp
  | _ :: _, 0, _, h => by omega
  | a :: rest, n + 1, 0, _ => by simp
  | a :: rest, n + 1, i + 1, h => by
    simp only [List.take, List.getD_cons_succ]
    exact getD_take d rest n i (by omega)

theorem lagrangeAtZero_congr (ps qs : List (ℚ × ℚ)) (T : Nat)
    (h : ∀ i, i < T → ps.getD i (0, 0) = qs.getD i (0, 0)) :
    lagrangeAtZero ps T = lagrangeAtZero qs T := by
  unfold lagrangeAtZero
  refine foldl_range_congr _ _ T (fun acc i hi => ?_) 0
  rw [h i hi]
  congr 1
  exact foldl_range_congr _ _ T (fun t j hj => by rw [h j hj]) _

/-! ## Concrete platform instances used to evaluate the embedding at
closed inputs (trivially correct AEAD, an invertible base64-like coding
that avoids the `"."` separator, a separator-based string-array codec,
and a unary byte coding with UTF-8's contract). -/

/-- Trivial AEAD satisfying the decryption contract: the identity
cipher. -/
def aeadId : AEAD := ⟨fun _ _ pt => pt, fun _ _ ct => some ct⟩

theorem aeadId_correct : aeadId.Correct := fun _ _ _ => rfl

theorem aeadId_bytelike : aeadId.Bytelike := fun _ _ _ h => h

/-- Invertible stand-in for `btoa`: shift every byte out of the byte
range, so the output never contains the `"."` code unit 46. -/
def btoaShift : Bytes → JStr := fun bs => bs.map (· + 256)

/-- Inverse of `btoaShift`. -/
def atobShift : JStr → Bytes := fun s => s.map (· - 256)

theorem atobShift_btoaShift (bs : Bytes) : atobShift (btoaShift bs) = bs := by
  induction bs with
  | nil => rfl
  | cons b t ih =>
    simp only [atobShift, btoaShift, List.map_cons] at ih ⊢
    rw [ih, show b + 256 - 256 = b from by omega]

theorem btoaShift_no_dot (bs : Bytes) : 46 ∉ btoaShift bs := by
  intro h
  simp only [btoaShift, List.mem_map] at h
  rcases h with ⟨x, _, hx⟩
  omega

theorem atobShift_nil : atobShift [] = [] := rfl

/-- Stand-in for `JSON.stringify` on string arrays: join on `","`. -/
def jstr44 : List JStr → JStr := fun ls => (List.intersperse [44] ls).flatten

/-- Stand-in for `JSON.parse` on string arrays: split on `","`. -/
def jparse44 : JStr → Option (List JStr) := fun s => some (sepSplit 44 s)

theorem jparse44_jstr44 :
    ∀ ls : List JStr, ls ≠ [] → (∀ s ∈ ls, 44 ∉ s) →
      jparse44 (jstr44 ls) = some ls
  | [], h, _ => absurd rfl h
  | [a], _, h44 => by
    simp only [jstr44, jparse44, List.intersperse_singleton, List.flatten,
      List.append_nil]
    rw [sepSplit_of_not_mem a (h44 a (List.mem_singleton.mpr rfl))]
  | a :: b :: t, _, h44 => by
    have ih := jparse44_jstr44 (b :: t) (List.cons_ne_nil b t)
      (fun s hs => h44 s (List.mem_cons_of_mem a hs))
    simp only [jstr44, jparse44, List.intersperse_cons_cons, List.flatten,
      Option.some.injEq] at ih ⊢
    rw [show ([44] : JStr) ++ (List.intersperse [44] (b :: t)).flatten
        = 44 :: (List.intersperse [44] (b :: t)).flatten from rfl,
      sepSplit_append a _ (h44 a (List.mem_cons_self a (b :: t))), ih]

/-- Hex strings never contain the `","` code unit, so the stand-in
string-array codec round-trips on them. -/
theorem jparse44_jstr44_hex (ls : List JStr) (hne : ls ≠ [])
    (hhex : ∀ s ∈ ls, ∀ c ∈ s, isHexDigitCode c = true) :
    jparse44 (jstr44 ls) = some ls := by
  refine jparse44_jstr44 ls hne (fun s hs h44 => ?_)
  have := hhex s hs 44 h44
  simp [isHexDigitCode] at this

/-- Unary byte coding standing in for `TextEncoder().encode`: code unit
`n` becomes `n` ones followed by a zero; all output values are `< 256`. -/
def utf8Unary : JStr → Bytes := fun s =>
  s.flatMap (fun n => List.replicate n 1 ++ [0])

/-- Decoder inverting `utf8Unary`, standing in for
`TextDecoder().decode`. -/
def tdUnary : Bytes → JStr := fun bs =>
  ((sepSplit 0 bs).dropLast).map List.length

theorem utf8Unary_bytes (s : JStr) : ∀ b ∈ utf8Unary s, b < 256 := by
  intro b hb
  simp only [utf8Unary, List.mem_flatMap, List.mem_append] at hb
  rcases hb with ⟨n, _, h | h⟩
  · rw [List.eq_of_mem_replicate h]; omega
  · simp at h; omega

theorem sepSplit_ne_nil (sep : Nat) : ∀ s : JStr, sepSplit sep s ≠ []
  | [] => by simp [sepSplit]
  | c :: rest => by
    simp only [sepSplit]
    split_ifs <;> simp

theorem tdUnary_utf8Unary : ∀ s : JStr, tdUnary (utf8Unary s) = s
  | [] => rfl
  | n :: rest => by
    have ih := tdUnary_utf8Unary rest
    have hz : (0 : Nat) ∉ List.replicate n 1 := by
      intro h
      have := List.eq_of_mem_replicate h
      omega
    simp only [utf8Unary, List.flatMap_cons, tdUnary] at ih ⊢
    rw [List.append_assoc,
      show ([0] : Bytes) ++ rest.flatMap (fun n => List.replicate n 1 ++ [0])
        = 0 :: rest.flatMap (fun n => List.replicate n 1 ++ [0]) from rfl,
      sepSplit_append _ _ hz]
    cases hsplit : sepSplit 0 (rest.flatMap (fun n => List.replicate n 1 ++ [0])) with
    | nil => exact absurd hsplit (sepSplit_ne_nil 0 _)
    | cons p ps =>
      rw [hsplit] at ih
      rw [List.dropLast_cons_of_ne_nil (List.cons_ne_nil p ps), List.map_cons,
        List.length_replicate, ih]

/-! ## Multi-layer loop lemmas -/

theorem mlEncLoop_eq (A : AEAD) (btoa : Bytes → JStr) (keyRnd ivRnd : Nat → Bytes)
    (hkeys : ∀ j, (keyRnd j).length = 16 ∧ ∀ b ∈ keyRnd j, b < 256) :
    ∀ n i data,
      mlEncLoop A btoa keyRnd ivRnd n i data =
        .ok ((List.range n).foldl
               (fun d j => A.enc (keyRnd (i + j)) (ivRnd (i + j)) d) data,
             (List.range n).map (fun j => bytesToHex (keyRnd (i + j))),
             (List.range n).map (fun j =>
               { algorithm := algAESGCM, ivBase64 := btoa (ivRnd (i + j)),
                 layerIndex := i + j })) := by
  intro n
  induction n with
  | zero =>
    intro i data
    simp [mlEncLoop]
  | succ n ih =>
    intro i data
    have hk := hkeys i
    have hlen : (parseHexPairs (bytesToHex (keyRnd i))).length = 16 := by
      rw [parseHexPairs_bytesToHex (keyRnd i) hk.2, hk.1]
    simp only [mlEncLoop]
    rw [if_neg (by omega)]
    rw [parseHexPairs_bytesToHex (keyRnd i) hk.2]
    rw [ih (i + 1) (A.enc (keyRnd i) (ivRnd i) data)]
    have harr : ∀ j : Nat, i + 1 + j = i + (j + 1) := fun j => by omega
    simp only [List.range_succ_eq_map, List.foldl_cons, List.map_cons,
      List.foldl_map, List.map_map, Nat.add_zero, Function.comp_def, harr,
      Nat.succ_eq_add_one]

theorem mlDecLoop_inv (A : AEAD) (atob : JStr → Bytes) (btoa : Bytes → JStr)
    (keyRnd ivRnd : Nat → Bytes)
    (hA : A.Correct)
    (hkeys : ∀ j, (keyRnd j).length = 16 ∧ ∀ b ∈ keyRnd j, b < 256)
    (hiv : ∀ j, atob (btoa (ivRnd j)) = ivRnd j) :
    ∀ (n : Nat) (layers : List LayerMeta) (keys : List JStr) (data : Bytes),
      (∀ j, j < n → keys.getD j [] = bytesToHex (keyRnd j) ∧
        (layers.getD j { algorithm := [], ivBase64 := [], layerIndex := 0 }).ivBase64
          = btoa (ivRnd j)) →
      mlDecLoop A atob layers keys n
        ((List.range n).foldl (fun d j => A.enc (keyRnd j) (ivRnd j) d) data)
      = .ok data := by
  intro n
  induction n with
  | zero =>
    intro layers keys data _
    simp [mlDecLoop]
  | succ n ih =>
    intro layers keys data h
    have hk := hkeys n
    have hj := h n (by omega)
    rw [List.range_succ, List.foldl_append, List.foldl_cons, List.foldl_nil]
    simp only [mlDecLoop, hj.1, hj.2]
    rw [parseHexPairs_bytesToHex (keyRnd n) hk.2]
    rw [if_neg (by omega)]
    rw [hiv n, hA]
    exact ih layers keys data (fun j hjn => h j (by omega))

theorem getD_map_range {α : Type} (f : Nat → α) (d : α) (n j : Nat) (h : j < n) :
    ((List.range n).map f).getD j d = f j := by
  rw [List.getD_eq_getElem?_getD, List.getElem?_map, List.getElem?_range h]
  rfl

/-- Both sides of the scheme derive the AES key from the primary key by
the same trichotomy: the two verbatim copies in `encryptLayerKeys` and
`decryptLayerKeys` are one function. -/
theorem deriveKeyBytes_agree (sha : Bytes → Bytes) (utf8 : JStr → Bytes)
    (primaryKey : JStr) :
    deriveKeyBytesDec sha utf8 primaryKey = deriveKeyBytesEnc sha utf8 primaryKey := rfl

/-- Claim C3 (amended): the layer count is hardcoded to `LAYERS = 3`,
and for that fixed three-layer scheme `multiLayerDecrypt` undoes
`multiLayerEncrypt` in last-applied-first order, for any platform
primitives satisfying their contracts. -/
theorem multiLayer_roundtrip
    (A : AEAD) (btoa : Bytes → JStr) (atob : JStr → Bytes)
    (utf8 : JStr → Bytes) (td : Bytes → JStr) (sha : Bytes → Bytes)
    (jstr : List JStr → JStr) (jparse : JStr → Option (List JStr))
    (keyRnd ivRnd : Nat → Bytes) (klIv : Bytes) (uuid : JStr)
    (data : Bytes) (primaryKey : JStr)
    (hA : A.Correct) (hAB : A.Bytelike)
    (hba : ∀ bs, (∀ b ∈ bs, b < 256) → atob (btoa bs) = bs)
    (hdot : ∀ bs, (∀ b ∈ bs, b < 256) → 46 ∉ btoa bs)
    (hutf8 : ∀ s, ∀ b ∈ utf8 s, b < 256)
    (htd : ∀ s, td (utf8 s) = s)
    (hjson : ∀ ls, ls ≠ [] → (∀ s ∈ ls, ∀ c ∈ s, isHexDigitCode c = true) →
      jparse (jstr ls) = some ls)
    (hkeys : ∀ j, (keyRnd j).length = 16 ∧ ∀ b ∈ keyRnd j, b < 256)
    (hivb : ∀ j, ∀ b ∈ ivRnd j, b < 256)
    (hklIv : ∀ b ∈ klIv, b < 256) :
    (multiLayerEncrypt A btoa utf8 sha jstr keyRnd ivRnd klIv uuid
        data primaryKey).bind
      (fun r => multiLayerDecrypt A atob utf8 td sha jparse r.1 r.2.2 primaryKey)
    = .ok data := by
  simp only [multiLayerEncrypt, mlEncLoop_eq A btoa keyRnd ivRnd hkeys,
    Nat.zero_add, Except.bind]
  simp only [multiLayerDecrypt, decryptLayerKeys, encryptLayerKeys]
  have hctb : ∀ b ∈ A.enc (deriveKeyBytesEnc sha utf8 primaryKey) klIv
      (utf8 (jstr ((List.range LAYERS).map fun j => bytesToHex (keyRnd j)))),
      b < 256 := hAB _ _ _ (hutf8 _)
  rw [show ∀ x y : JStr, x ++ [46] ++ y = x ++ 46 :: y from
    fun x y => by simp]
  rw [sepSplit_append _ _ (hdot _ hctb),
    sepSplit_of_not_mem _ (hdot _ hklIv)]
  simp only [List.getD_cons_zero, List.getD_cons_succ]
  rw [hba _ hctb, hba _ hklIv, deriveKeyBytes_agree, hA]
  have hkeysHex : ∀ s ∈ (List.range LAYERS).map fun j => bytesToHex (keyRnd j),
      ∀ c ∈ s, isHexDigitCode c = true := by
    intro s hs c hc
    simp only [List.mem_map, List.mem_range] at hs
    rcases hs with ⟨j, _, rfl⟩
    exact bytesToHex_hexDigits (keyRnd j) (hkeys j).2 c hc
  have hj : jparse (jstr ((List.range LAYERS).map fun j => bytesToHex (keyRnd j)))
      = some ((List.range LAYERS).map fun j => bytesToHex (keyRnd j)) :=
    hjson _ (by simp [LAYERS]) hkeysHex
  simp only [htd, hj, List.length_map, List.length_range]
  exact mlDecLoop_inv A atob btoa keyRnd ivRnd hA hkeys
    (fun j => hba _ (hivb j)) LAYERS _ _ data
    (fun j hjn => ⟨getD_map_range _ _ _ _ hjn, by rw [getD_map_range _ _ _ _ hjn]⟩)

/-- Constant digest standing in for SHA-256 (32-byte output). -/
def sha0 : Bytes → Bytes := fun _ => List.replicate 32 0

/-! ## Claims -/

/-- Claim C1 (code bug, evaluated at the failing input): for the
two-chunk list `[[0x00], [0x01]]`, `generateMerkleTree` emits one proof
per chunk, the proof for leaf 0 verifies, but the tree's own proof for
leaf 1 is rejected by `verifyMerkleProof` — the verifier always appends
the sibling on the right (`hash + sibling`), while the builder combined
`level[i] + level[i+1]` in index order, so every step at which the leaf
sits in an odd (right-child) position recombines in the wrong order. -/
theorem merkle_verify_rejects_generated_proof :
    (generateMerkleTree utf8Ascii [[0], [1]]).2.length = 2 ∧
    verifyMerkleProof utf8Ascii [0]
      ((generateMerkleTree utf8Ascii [[0], [1]]).2.getD 0 [])
      (generateMerkleTree utf8Ascii [[0], [1]]).1 = true ∧
    verifyMerkleProof utf8Ascii [1]
      ((generateMerkleTree utf8Ascii [[0], [1]]).2.getD 1 [])
      (generateMerkleTree utf8Ascii [[0], [1]]).1 = false := by
  refine ⟨?_, ?_, ?_⟩ <;>
    simp [generateMerkleTree, buildLevels, combineLevel, proofSteps,
      verifyMerkleProof, strHash, hashChunk, bytesToHex, byteToHex2,
      hexDigitCode, utf8Ascii, show Nat.xor 0 66 = 66 from by decide,
      show Nat.xor 1 66 = 67 from by decide]

/-- Claim C5: `combineShares` throws the insufficient-shares error
whenever fewer than `threshold` shares are supplied, before any
interpolation. -/
theorem combineShares_insufficient_shares (td : Bytes → JStr)
    (shares : List JStr) (threshold : Nat)
    (h : shares.length < threshold) :
    combineShares td shares threshold = .error .insufficientShares := by
  simp [combineShares, h]

/-- Witness for C5: two shares against threshold 3. -/
theorem combineShares_insufficient_shares_witness :
    combineShares tdUnary [[49, 58, 50], [50, 58, 54]] 3
      = .error .insufficientShares :=
  combineShares_insufficient_shares tdUnary [[49, 58, 50], [50, 58, 54]] 3
    (by decide)

/-- Claim C8: `encryptFile` rejects inputs strictly larger than
15 * 1024 * 1024 bytes with the size-limit error before any
cryptographic work; for inputs of at most that size the guard never
fires (whatever else happens, the result is not the size-limit
error). -/
theorem encryptFile_size_guard (A : AEAD) (btoa : Bytes → JStr)
    (iv : Bytes) (file : JsFile) (encryptionKey : JStr) :
    (file.bytes.length > MAX_ENCRYPTION_SIZE →
      encryptFile A btoa iv file encryptionKey = .error .sizeLimitExceeded) ∧
    (file.bytes.length ≤ MAX_ENCRYPTION_SIZE →
      encryptFile A btoa iv file encryptionKey ≠ .error .sizeLimitExceeded) := by
  constructor
  · intro h
    simp [encryptFile, h]
  · intro h
    simp only [encryptFile]
    rw [if_neg (by omega)]
    split_ifs <;> simp

/-- Witness for C8: a 15 MB + 1 byte input is rejected, a 1-byte input
is not. -/
theorem encryptFile_size_guard_witness :
    encryptFile aeadId btoaShift (List.replicate 12 0)
      { name := [], bytes := List.replicate (MAX_ENCRYPTION_SIZE + 1) 0 }
      (List.replicate 32 48) = .error .sizeLimitExceeded ∧
    encryptFile aeadId btoaShift (List.replicate 12 0)
      { name := [], bytes := [0] }
      (List.replicate 32 48) ≠ .error .sizeLimitExceeded :=
  ⟨(encryptFile_size_guard aeadId btoaShift (List.replicate 12 0)
      { name := [], bytes := List.replicate (MAX_ENCRYPTION_SIZE + 1) 0 }
      (List.replicate 32 48)).1 (by simp),
   (encryptFile_size_guard aeadId btoaShift (List.replicate 12 0)
      { name := [], bytes := [0] }
      (List.replicate 32 48)).2 (by simp [MAX_ENCRYPTION_SIZE])⟩

/-- Claim C9: the key-derivation trichotomy of `encryptLayerKeys` and
`decryptLayerKeys` — exactly 32 hex chars parse to the 16 raw bytes,
exactly 64 hex chars parse to 32 bytes truncated to the first 16, and
anything else is digested and truncated to 16 bytes — and the two
verbatim copies agree on every input string. -/
theorem key_derivation_trichotomy (sha : Bytes → Bytes)
    (utf8 : JStr → Bytes) (primaryKey : JStr) :
    deriveKeyBytesEnc sha utf8 primaryKey
      = deriveKeyBytesDec sha utf8 primaryKey ∧
    (isHexOfLen 32 primaryKey = true →
      deriveKeyBytesEnc sha utf8 primaryKey = parseHexPairs primaryKey ∧
      (parseHexPairs primaryKey).length = 16) ∧
    (isHexOfLen 32 primaryKey = false → isHexOfLen 64 primaryKey = true →
      deriveKeyBytesEnc sha utf8 primaryKey
        = (parseHexPairs primaryKey).take 16 ∧
      (parseHexPairs primaryKey).length = 32) ∧
    (isHexOfLen 32 primaryKey = false → isHexOfLen 64 primaryKey = false →
      deriveKeyBytesEnc sha utf8 primaryKey
        = (sha (utf8 primaryKey)).take 16) := by
  refine ⟨(deriveKeyBytes_agree sha utf8 primaryKey).symm, ?_, ?_, ?_⟩
  · intro h
    have hlen : primaryKey.length = 32 := by
      simp [isHexOfLen] at h
      exact h.1
    refine ⟨by simp [deriveKeyBytesEnc, h], ?_⟩
    rw [parseHexPairs_length, hlen]
  · intro h32 h64
    have hlen : primaryKey.length = 64 := by
      simp [isHexOfLen] at h64
      exact h64.1
    refine ⟨by simp [deriveKeyBytesEnc, h32, h64], ?_⟩
    rw [parseHexPairs_length, hlen]
  · intro h32 h64
    simp [deriveKeyBytesEnc, h32, h64]

/-- Witness for C9: a 32-hex key (all `"0"`) and a passphrase
(`"x"`). -/
theorem key_derivation_trichotomy_witness :
    deriveKeyBytesEnc sha0 utf8Unary (List.replicate 32 48)
      = parseHexPairs (List.replicate 32 48) ∧
    deriveKeyBytesEnc sha0 utf8Unary [120]
      = (sha0 (utf8Unary [120])).take 16 :=
  ⟨((key_derivation_trichotomy sha0 utf8Unary (List.replicate 32 48)).2.1
      (by decide)).1,
   (key_derivation_trichotomy sha0 utf8Unary [120]).2.2.2
      (by decide) (by decide)⟩

/-- Claim C10: with at least `threshold` shares supplied,
`combineShares` computes exactly what it computes on the first
`threshold` shares — the Lagrange loops only read `points[i]` for
`i < threshold`, so later shares never influence the result. -/
theorem combineShares_uses_first_threshold_shares (td : Bytes → JStr)
    (shares : List JStr) (threshold : Nat)
    (h : threshold ≤ shares.length) :
    combineShares td shares threshold
      = combineShares td (shares.take threshold) threshold := by
  unfold combineShares
  rw [if_neg (by omega), if_neg (by simp [List.length_take]; omega)]
  show Except.ok (td (decode256 (jsRound
      (lagrangeAtZero (shares.map parseShare) threshold)).toNat))
    = Except.ok (td (decode256 (jsRound
      (lagrangeAtZero ((shares.take threshold).map parseShare) threshold)).toNat))
  rw [lagrangeAtZero_congr (shares.map parseShare)
    ((shares.take threshold).map parseShare) threshold
    (fun i hi => by rw [List.map_take]; exact (getD_take (0, 0)
      (shares.map parseShare) threshold i hi).symm)]

/-- Witness for C10: five shares, threshold 3. -/
theorem combineShares_uses_first_threshold_shares_witness :
    combineShares tdUnary
      [[49, 58, 50], [50, 58, 54], [51, 58, 49, 50], [52, 58, 50, 48],
       [53, 58, 51, 48]] 3
      = combineShares tdUnary
        ([[49, 58, 50], [50, 58, 54], [51, 58, 49, 50], [52, 58, 50, 48],
          [53, 58, 51, 48]].take 3) 3 :=
  combineShares_uses_first_threshold_shares tdUnary
    [[49, 58, 50], [50, 58, 54], [51, 58, 49, 50], [52, 58, 50, 48],
     [53, 58, 51, 48]] 3 (by decide)

/-- Constant-stream randomness for concrete multi-layer runs: 16 zero
key bytes per layer. -/
def keyRnd0 : Nat → Bytes := fun _ => List.replicate 16 0

/-- Constant-stream randomness for concrete multi-layer runs: 12 zero
IV bytes per layer. -/
def ivRnd0 : Nat → Bytes := fun _ => List.replicate 12 0

/-- Counterexample for C3: `multiLayerEncrypt` has no layer-count
input at all — `const LAYERS = 3` — so a run always emits exactly three
layer records; no security preset can make it 1, 2 or 5. -/
theorem multiLayerEncrypt_layers_fixed_at_three :
    (multiLayerEncrypt aeadId btoaShift utf8Unary sha0 jstr44 keyRnd0 ivRnd0
        (List.replicate 12 0) [] [1, 2, 3] []).map
      (fun r => r.2.2.layers.length) = .ok 3 := by
  have hkeys : ∀ j, (keyRnd0 j).length = 16 ∧ ∀ b ∈ keyRnd0 j, b < 256 := by
    intro j
    refine ⟨by simp [keyRnd0], fun b hb => ?_⟩
    rw [List.eq_of_mem_replicate hb]
    omega
  simp [multiLayerEncrypt, mlEncLoop_eq aeadId btoaShift keyRnd0 ivRnd0 hkeys,
    Except.map, LAYERS]

/-- Witness for C3: the three-layer round trip evaluated with the
trivial cipher and the concrete stand-in platform codecs. -/
theorem multiLayer_roundtrip_witness :
    (multiLayerEncrypt aeadId btoaShift utf8Unary sha0 jstr44 keyRnd0 ivRnd0
        (List.replicate 12 3) [] [1, 2, 3] [120]).bind
      (fun r => multiLayerDecrypt aeadId atobShift utf8Unary tdUnary sha0
        jparse44 r.1 r.2.2 [120]) = .ok [1, 2, 3] :=
  multiLayer_roundtrip aeadId btoaShift atobShift utf8Unary tdUnary sha0
    jstr44 jparse44 keyRnd0 ivRnd0 (List.replicate 12 3) [] [1, 2, 3] [120]
    aeadId_correct aeadId_bytelike
    (fun bs _ => atobShift_btoaShift bs)
    (fun bs _ => btoaShift_no_dot bs)
    utf8Unary_bytes
    tdUnary_utf8Unary
    jparse44_jstr44_hex
    (fun j => ⟨by simp [keyRnd0],
      fun b hb => by rw [List.eq_of_mem_replicate hb]; omega⟩)
    (fun j b hb => by rw [List.eq_of_mem_replicate hb]; omega)
    (fun b hb => by rw [List.eq_of_mem_replicate hb]; omega)

/-- Claim C7 (amended): `multiLayerDecrypt` never reads
`metadata.version` — its behavior is identical for every version tag,
so no version check happens at all. -/
theorem multiLayerDecrypt_ignores_version (A : AEAD) (atob : JStr → Bytes)
    (utf8 : JStr → Bytes) (td : Bytes → JStr) (sha : Bytes → Bytes)
    (jparse : JStr → Option (List JStr)) (encryptedData : Bytes)
    (v v2 : JStr) (layers : List LayerMeta) (elk : JStr) (eid : JStr)
    (primaryKey : JStr) :
    multiLayerDecrypt A atob utf8 td sha jparse encryptedData
      { version := v, layers := layers, encryptedLayerKeys := elk,
        encryptionId := eid } primaryKey
    = multiLayerDecrypt A atob utf8 td sha jparse encryptedData
      { version := v2, layers := layers, encryptedLayerKeys := elk,
        encryptionId := eid } primaryKey := rfl

/-- Code units of the string literal `"2.0"`, a version tag the spec
calls unrecognized. -/
def versionTwoZero : JStr := [50, 46, 48]

/-- A well-formed single-layer metadata record carrying the
unrecognized version tag `"2.0"`. -/
def mdVersionTwo : MLMeta :=
  { version := versionTwoZero,
    layers := [{ algorithm := algAESGCM,
                 ivBase64 := btoaShift (List.replicate 12 1),
                 layerIndex := 0 }],
    encryptedLayerKeys :=
      btoaShift (utf8Unary (jstr44 [List.replicate 32 48])) ++ [46]
        ++ btoaShift (List.replicate 12 9),
    encryptionId := [] }

/-- Counterexample for C7: decryption of a metadata record whose
version tag is `"2.0"` succeeds — no `UnsupportedVersionError` (no
error at all) is raised before or during decryption. -/
theorem multiLayerDecrypt_accepts_unknown_version :
    multiLayerDecrypt aeadId atobShift utf8Unary tdUnary sha0 jparse44
      [7, 7, 7] mdVersionTwo (List.replicate 32 48) = .ok [7, 7, 7] := by
  set_option maxRecDepth 4096 in rfl

/-- An AEAD whose decryption always rejects (models a wrong primary
key: every tag check fails). -/
def aeadRejectAll : AEAD := ⟨fun _ _ pt => pt, fun _ _ _ => none⟩

/-- An AEAD that decrypts only under the IV `[9, 9, ..., 9]` (the
layer-key bundle IV below): key recovery succeeds, every per-layer
decrypt fails. -/
def aeadOnlyIv9 : AEAD :=
  ⟨fun _ _ pt => pt,
   fun _ iv ct => if iv = List.replicate 12 9 then some ct else none⟩

/-- Metadata whose layer-key bundle decrypts under `aeadOnlyIv9` but
whose single layer does not (its IV is `[1, 1, ..., 1]`). -/
def mdLayerFails : MLMeta :=
  { version := versionOneZero,
    layers := [{ algorithm := algAESGCM,
                 ivBase64 := btoaShift (List.replicate 12 1),
                 layerIndex := 0 }],
    encryptedLayerKeys :=
      btoaShift (utf8Unary (jstr44 [List.replicate 32 48])) ++ [46]
        ++ btoaShift (List.replicate 12 9),
    encryptionId := [] }

/-- Counterexample for C6: on one and the same well-formed metadata
record (its `encryptedLayerKeys` is a proper dotted bundle), a failed
layer-key recovery (wrong primary key: the AEAD rejects the bundle) and
a failed per-layer decrypt (keys recovered, layer tag check fails) both
surface from `multiLayerDecrypt` as the very same propagated platform
rejection — there is no distinct `KeyRecoveryError` kind. -/
theorem multiLayerDecrypt_error_kinds_collapse :
    multiLayerDecrypt aeadRejectAll atobShift utf8Unary tdUnary sha0 jparse44
      [5] mdLayerFails (List.replicate 32 48)
      = .error .operationError ∧
    multiLayerDecrypt aeadOnlyIv9 atobShift utf8Unary tdUnary sha0 jparse44
      [5] mdLayerFails (List.replicate 32 48)
      = .error .operationError := by
  constructor
  · set_option maxRecDepth 4096 in rfl
  · set_option maxRecDepth 4096 in rfl

/-- Claim C6 (amended): `multiLayerDecrypt` wraps neither failure —
when the AEAD rejects the layer-key bundle the result is the propagated
operation error, and when a per-layer AEAD decrypt rejects the result
is the same operation error, so the two failure modes are not
distinguishable by kind. -/
theorem multiLayerDecrypt_failures_same_error (A : AEAD)
    (atob : JStr → Bytes) (utf8 : JStr → Bytes) (td : Bytes → JStr)
    (sha : Bytes → Bytes) (jparse : JStr → Option (List JStr))
    (encryptedData : Bytes) (md : MLMeta) (primaryKey : JStr) :
    (2 ≤ (sepSplit 46 md.encryptedLayerKeys).length →
      A.dec (deriveKeyBytesDec sha utf8 primaryKey)
        (atob ((sepSplit 46 md.encryptedLayerKeys).getD 1 []))
        (atob ((sepSplit 46 md.encryptedLayerKeys).getD 0 [])) = none →
      multiLayerDecrypt A atob utf8 td sha jparse encryptedData md primaryKey
        = .error .operationError) ∧
    (∀ layerKeys n,
      decryptLayerKeys A atob utf8 td sha jparse md.encryptedLayerKeys
        primaryKey = .ok layerKeys →
      md.layers.length = n + 1 →
      (parseHexPairs (layerKeys.getD n [])).length = 16 →
      A.dec (parseHexPairs (layerKeys.getD n []))
        (atob ((md.layers.getD n
          { algorithm := [], ivBase64 := [], layerIndex := 0 }).ivBase64))
        encryptedData = none →
      multiLayerDecrypt A atob utf8 td sha jparse encryptedData md primaryKey
        = .error .operationError) := by
  constructor
  · intro hparts h
    simp only [multiLayerDecrypt, decryptLayerKeys, h]
    rw [if_neg (by omega)]
  · intro layerKeys n hdlk hn h16 hdec
    simp only [multiLayerDecrypt, hdlk, hn, mlDecLoop]
    rw [if_neg (by omega), hdec]

/-- Witness for C6: the amended statement applied to the two concrete
failure scenarios over the same well-formed metadata record. -/
theorem multiLayerDecrypt_failures_same_error_witness :
    multiLayerDecrypt aeadRejectAll atobShift utf8Unary tdUnary sha0 jparse44
      [6] mdLayerFails (List.replicate 32 48)
      = .error .operationError ∧
    multiLayerDecrypt aeadOnlyIv9 atobShift utf8Unary tdUnary sha0 jparse44
      [6] mdLayerFails (List.replicate 32 48)
      = .error .operationError :=
  ⟨(multiLayerDecrypt_failures_same_error aeadRejectAll atobShift utf8Unary
      tdUnary sha0 jparse44 [6] mdLayerFails (List.replicate 32 48)).1
      (by set_option maxRecDepth 4096 in decide) rfl,
   (multiLayerDecrypt_failures_same_error aeadOnlyIv9 atobShift utf8Unary
      tdUnary sha0 jparse44 [6] mdLayerFails (List.replicate 32 48)).2
      [List.replicate 32 48] 0
      (by set_option maxRecDepth 4096 in rfl) rfl rfl rfl⟩

/-- Claim C2 (amended): for inputs of at most 15 MB, decrypting the
output of `encryptFile` with `decryptFile` under the same valid 32-hex
key and the returned metadata yields exactly the input bytes, for any
platform AEAD and base64 codec satisfying their contracts. -/
theorem encryptFile_decryptFile_roundtrip (A : AEAD) (btoa : Bytes → JStr)
    (atob : JStr → Bytes) (iv : Bytes) (file : JsFile)
    (encryptionKey : JStr)
    (hA : A.Correct)
    (hba : ∀ bs, (∀ b ∈ bs, b < 256) → atob (btoa bs) = bs)
    (hbe : atob [] = [])
    (hiv : iv.length = 12) (hivb : ∀ b ∈ iv, b < 256)
    (hkey : isHexOfLen 32 encryptionKey = true)
    (hsize : file.bytes.length ≤ MAX_ENCRYPTION_SIZE) :
    (encryptFile A btoa iv file encryptionKey).bind
      (fun r => (decryptFile A atob r.1 r.2 encryptionKey).map
        (fun f => f.bytes))
    = .ok file.bytes := by
  have hlen : (parseHexPairs encryptionKey).length = 16 := by
    have h32 : encryptionKey.length = 32 := by
      simp [isHexOfLen] at hkey
      exact hkey.1
    rw [parseHexPairs_length, h32]
  have hbne : btoa iv ≠ [] := by
    intro h0
    have hival := hba iv hivb
    rw [h0, hbe] at hival
    rw [← hival] at hiv
    simp at hiv
  simp only [encryptFile]
  rw [if_neg (by omega), if_neg (by omega)]
  simp only [Except.bind, decryptFile]
  rw [if_neg hbne, if_neg (by omega), hba iv hivb, hA]
  simp [Except.map]

/-- Counterexample for C2: for a buffer of 15 * 1024 * 1024 + 1 bytes
and a valid 32-hex key, the round trip does not return the buffer —
`encryptFile` rejects it with the size-limit error, so the claim's
unrestricted "every byte buffer" fails. -/
theorem encryptFile_roundtrip_fails_oversize :
    (encryptFile aeadId btoaShift (List.replicate 12 0)
        { name := [], bytes := List.replicate (MAX_ENCRYPTION_SIZE + 1) 0 }
        (List.replicate 32 48)).bind
      (fun r => (decryptFile aeadId atobShift r.1 r.2
        (List.replicate 32 48)).map (fun f => f.bytes))
    ≠ .ok (List.replicate (MAX_ENCRYPTION_SIZE + 1) 0) := by
  have hg : encryptFile aeadId btoaShift (List.replicate 12 0)
      { name := [], bytes := List.replicate (MAX_ENCRYPTION_SIZE + 1) 0 }
      (List.replicate 32 48) = .error .sizeLimitExceeded := by
    unfold encryptFile
    rw [if_pos]
    rw [List.length_replicate]
    omega
  rw [hg]
  intro h
  exact Except.noConfusion h

/-- Witness for C2: a concrete 3-byte file under the all-zero 32-hex
key with the stand-in platform codecs. -/
theorem encryptFile_decryptFile_roundtrip_witness :
    (encryptFile aeadId btoaShift (List.replicate 12 5)
        { name := [102], bytes := [10, 20, 30] }
        (List.replicate 32 48)).bind
      (fun r => (decryptFile aeadId atobShift r.1 r.2
        (List.replicate 32 48)).map (fun f => f.bytes))
    = .ok [10, 20, 30] :=
  encryptFile_decryptFile_roundtrip aeadId btoaShift atobShift
    (List.replicate 12 5) { name := [102], bytes := [10, 20, 30] }
    (List.replicate 32 48)
    aeadId_correct
    (fun bs _ => atobShift_btoaShift bs)
    atobShift_nil
    (by simp)
    (fun b hb => by rw [List.eq_of_mem_replicate hb]; omega)
    (by decide)
    (by simp [MAX_ENCRYPTION_SIZE])

theorem natToDec_no_colon (n : Nat) : (58 : Nat) ∉ natToDec n := by
  intro h
  have := natToDec_digits n 58 h
  omega

theorem parseShare_encode (x y : Nat) :
    parseShare (natToDec x ++ [58] ++ natToDec y) = ((x : ℚ), (y : ℚ)) := by
  unfold parseShare
  rw [List.append_assoc,
    show ([58] : JStr) ++ natToDec y = 58 :: natToDec y from rfl,
    sepSplit_append _ _ (natToDec_no_colon x),
    sepSplit_of_not_mem _ (natToDec_no_colon y)]
  simp [decParse_natToDec]

theorem polyEval_three (c0 c1 c2 x : Nat) :
    polyEval [c0, c1, c2] x = c0 + c1 * x + c2 * x ^ 2 := by
  simp [polyEval, List.range_succ]

/-- Claim C4 (amended): for every secret of at most 6 bytes whose byte
encoding is empty or ends in a nonzero byte, splitting into 5 shares
with threshold 3 and combining any 3 shares with distinct x-values
reconstructs exactly the original secret.  The length bound keeps the
encoded secret below 2^48, the range on which the source's IEEE-754
double arithmetic is exact enough for `Math.round` to recover the
integer, so the exact-arithmetic embedding and the source agree; from
7 bytes up the encoded secret exceeds 2^53-bit precision and the real
`combineShares` returns a rounded, different secret. -/
theorem splitKey_combineShares_roundtrip
    (utf8 : JStr → Bytes) (td : Bytes → JStr) (coeffRnd : Nat → Nat)
    (secret : JStr)
    (_hlen6 : (utf8 secret).length ≤ 6)
    (hbytes : ∀ b ∈ utf8 secret, b < 256)
    (hlast : (utf8 secret).getLast? ≠ some 0)
    (htd : td (utf8 secret) = secret)
    (a b c : Nat) (ha : a < 5) (hb : b < 5) (hc : c < 5)
    (hab : a ≠ b) (hac : a ≠ c) (hbc : b ≠ c) :
    combineShares td
      [(splitKey utf8 coeffRnd secret 5 3).getD a [],
       (splitKey utf8 coeffRnd secret 5 3).getD b [],
       (splitKey utf8 coeffRnd secret 5 3).getD c []] 3
    = .ok secret := by
  have hsplit : ∀ k, k < 5 → (splitKey utf8 coeffRnd secret 5 3).getD k []
      = natToDec (k + 1) ++ [58] ++ natToDec (polyEval
          [encode256 (utf8 secret), coeffRnd 1, coeffRnd 2] (k + 1)) := by
    intro k hk
    simp only [splitKey]
    rw [show (List.range (3 - 1)).map (fun i => coeffRnd (i + 1))
        = [coeffRnd 1, coeffRnd 2] from by simp [List.range_succ]]
    exact getD_map_range _ [] 5 k hk
  unfold combineShares
  rw [if_neg (by simp)]
  show Except.ok (td (decode256 (jsRound (lagrangeAtZero
      ([(splitKey utf8 coeffRnd secret 5 3).getD a [],
        (splitKey utf8 coeffRnd secret 5 3).getD b [],
        (splitKey utf8 coeffRnd secret 5 3).getD c []].map parseShare)
      3)).toNat)) = Except.ok secret
  rw [hsplit a ha, hsplit b hb, hsplit c hc]
  simp only [List.map_cons, List.map_nil, parseShare_encode]
  have hx01 : ((a : ℚ) + 1) ≠ ((b : ℚ) + 1) := by
    intro h
    exact hab (by exact_mod_cast add_right_cancel h)
  have hx02 : ((a : ℚ) + 1) ≠ ((c : ℚ) + 1) := by
    intro h
    exact hac (by exact_mod_cast add_right_cancel h)
  have hx12 : ((b : ℚ) + 1) ≠ ((c : ℚ) + 1) := by
    intro h
    exact hbc (by exact_mod_cast add_right_cancel h)
  have hlag : lagrangeAtZero
      [(((a + 1 : Nat) : ℚ),
        ((polyEval [encode256 (utf8 secret), coeffRnd 1, coeffRnd 2]
          (a + 1) : Nat) : ℚ)),
       (((b + 1 : Nat) : ℚ),
        ((polyEval [encode256 (utf8 secret), coeffRnd 1, coeffRnd 2]
          (b + 1) : Nat) : ℚ)),
       (((c + 1 : Nat) : ℚ),
        ((polyEval [encode256 (utf8 secret), coeffRnd 1, coeffRnd 2]
          (c + 1) : Nat) : ℚ))] 3
      = ((encode256 (utf8 secret) : Nat) : ℚ) := by
    rw [polyEval_three, polyEval_three, polyEval_three]
    push_cast
    exact lagrange3 ((a : ℚ) + 1) ((b : ℚ) + 1) ((c : ℚ) + 1)
      (encode256 (utf8 secret)) (coeffRnd 1) (coeffRnd 2) hx01 hx02 hx12
  rw [hlag, jsRound_natCast, Int.toNat_natCast,
    decode256_encode256 _ hbytes hlast, htd]

/-- Counterexample for C4: the secret `"\x00"` (one NUL byte) encodes
to the integer 0; the decoding loop `while (tempSecret > 0)` emits no
bytes, so combining three shares returns the empty string, not the
original secret — trailing zero bytes are lost even with exact
arithmetic. -/
theorem combineShares_loses_trailing_zero_byte :
    combineShares id
      [(splitKey id (fun _ => 1) [0] 5 3).getD 0 [],
       (splitKey id (fun _ => 1) [0] 5 3).getD 1 [],
       (splitKey id (fun _ => 1) [0] 5 3).getD 2 []] 3 = .ok [] ∧
    ([] : JStr) ≠ [0] := by
  refine ⟨?_, by decide⟩
  have hsplit0 : ∀ k, k < 5 → (splitKey id (fun _ => 1) [0] 5 3).getD k []
      = natToDec (k + 1) ++ [58] ++ natToDec (polyEval [0, 1, 1] (k + 1)) := by
    intro k hk
    simp only [splitKey]
    rw [show (List.range (3 - 1)).map (fun i => (fun _ => 1) (i + 1))
        = [1, 1] from by simp [List.range_succ]]
    rw [show encode256 (id [0]) = 0 from rfl]
    exact getD_map_range _ [] 5 k hk
  unfold combineShares
  rw [if_neg (by simp)]
  show Except.ok (id (decode256 (jsRound (lagrangeAtZero
      ([(splitKey id (fun _ => 1) [0] 5 3).getD 0 [],
        (splitKey id (fun _ => 1) [0] 5 3).getD 1 [],
        (splitKey id (fun _ => 1) [0] 5 3).getD 2 []].map parseShare)
      3)).toNat)) = Except.ok []
  rw [hsplit0 0 (by omega), hsplit0 1 (by omega), hsplit0 2 (by omega)]
  simp only [List.map_cons, List.map_nil, parseShare_encode]
  have hlag : lagrangeAtZero
      [(((0 + 1 : Nat) : ℚ), ((polyEval [0, 1, 1] (0 + 1) : Nat) : ℚ)),
       (((1 + 1 : Nat) : ℚ), ((polyEval [0, 1, 1] (1 + 1) : Nat) : ℚ)),
       (((2 + 1 : Nat) : ℚ), ((polyEval [0, 1, 1] (2 + 1) : Nat) : ℚ))] 3
      = ((0 : Nat) : ℚ) := by
    rw [polyEval_three, polyEval_three, polyEval_three]
    push_cast
    have := lagrange3 ((0 : ℚ) + 1) ((1 : ℚ) + 1) ((2 : ℚ) + 1) 0 1 1
      (by norm_num) (by norm_num) (by norm_num)
    push_cast at this
    convert this using 2
    all_goals norm_num
  rw [hlag, jsRound_natCast, Int.toNat_natCast]
  rw [show decode256 0 = [] from decode256_zero]
  rfl

/-- Witness for C4: the secret `"a"` with constant randomness, shares
1, 2, 3. -/
theorem splitKey_combineShares_roundtrip_witness :
    combineShares id
      [(splitKey id (fun _ => 1) [97] 5 3).getD 0 [],
       (splitKey id (fun _ => 1) [97] 5 3).getD 1 [],
       (splitKey id (fun _ => 1) [97] 5 3).getD 2 []] 3 = .ok [97] :=
  splitKey_combineShares_roundtrip id id (fun _ => 1) [97]
    (by decide) (by decide) (by decide) rfl
    0 1 2 (by decide) (by decide) (by decide)
    (by decide) (by decide) (by decide)
